import Mathlib

/-!
Verification of the low-bit weight packing/unpacking codec found in
`quantization-in-depth/notebooks/QuantizationInDepth_P4.ipynb`
(functions `pack_weights` and `unpack_weights`).

Embedding conventions:
* A torch 1-D `uint8` tensor is modelled as a `List Nat` whose elements are
  the byte values; `uint8` arithmetic wraps modulo 256, so the left shift
  performed on a `uint8` cell is followed by `% 256` in the model.
* `tensor[i]` is modelled by `List.getD` (within the loop bounds of both
  functions the index is always in range, so the default is never used).
* `raise ValueError(msg)` is modelled by `Except.error msg`; a normal return
  is `Except.ok`.  `unpack_weights` raises nothing, so it stays a total
  function.
* The output tensor allocated by `torch.zeros((n,))` and then written at
  sequential positions is modelled by the list of written values followed by
  the zeros that were never overwritten (for `unpack_weights` the two loop
  bounds differ when `bits` does not divide 8, leaving a zero tail).
* The model is faithful for every `bits ≥ 1`.  At `bits = 0` the source
  raises `ZeroDivisionError` at `8 // bits`, whereas `Nat` division makes
  the model total, so no theorem below quantifies over `bits = 0`.
-/

namespace PackCodec

/-- The packing loop of `pack_weights`: output byte `i` is the bitwise OR of
the input values of chunk `i`, each left-shifted by `bits * j` inside the
8-bit carrier (`% 256` models the `uint8` cell).  `num_values` and
`num_steps` are computed exactly as in the source. -/
def pack_body (uint8tensor : List Nat) (bits : Nat) : List Nat :=
  let num_values := uint8tensor.length * bits / 8
  let num_steps := 8 / bits
  (List.range num_values).map (fun i =>
    (List.range num_steps).foldl
      (fun acc j => acc ||| ((uint8tensor.getD (i * num_steps + j) 0 <<< (bits * j)) % 256)) 0)

/-- `pack_weights(uint8tensor, bits)`: checks that the input length is a
multiple of `8 // bits` (raising `ValueError` otherwise) and then packs the
values by shift-and-OR. -/
def pack_weights (uint8tensor : List Nat) (bits : Nat) : Except String (List Nat) :=
  if uint8tensor.length * bits % 8 ≠ 0 then
    Except.error ("The input length must be a multiple of " ++ toString (8 / bits))
  else
    Except.ok (pack_body uint8tensor bits)

/-- The unpacking loops of `unpack_weights`: every input byte `i` yields
`num_steps` outputs `(byte >> (bits * j)) & mask` written at consecutive
positions. -/
def unpack_body (uint8tensor : List Nat) (bits : Nat) : List Nat :=
  let num_steps := 8 / bits
  let mask := 2 ^ bits - 1
  uint8tensor.flatMap (fun b =>
    (List.range num_steps).map (fun j => (b >>> (bits * j)) &&& mask))

/-- `unpack_weights(uint8tensor, bits)`: allocates
`num_values = len * 8 // bits` zeros and fills the first
`len * (8 // bits)` of them (the two numbers agree whenever `bits`
divides 8, which is the case for every supported width). -/
def unpack_weights (uint8tensor : List Nat) (bits : Nat) : List Nat :=
  let num_values := uint8tensor.length * 8 / bits
  let body := unpack_body uint8tensor bits
  body ++ List.replicate (num_values - body.length) 0

/-- The packing loop as the spec describes it: the same shift-and-OR but
with no wraparound on the shifted value, since the spec asserts that
"overflow beyond bit 7 cannot occur given the range precondition".
Compared against `pack_body` in the overflow-freedom theorem. -/
def pack_body_spec (uint8tensor : List Nat) (bits : Nat) : List Nat :=
  let num_values := uint8tensor.length * bits / 8
  let num_steps := 8 / bits
  (List.range num_values).map (fun i =>
    (List.range num_steps).foldl
      (fun acc j => acc ||| (uint8tensor.getD (i * num_steps + j) 0 <<< (bits * j))) 0)

/-! ### Proof-side reformulations

`packByte` is the little-endian base-`2^bits` value of one chunk of fields;
`unpackByte` is the list of fields one byte unpacks to; `packChunks` is the
packing loop rephrased as recursion on chunks of `s` input values.  They are
proved equal to the loops of `pack_body` / `unpack_body` below. -/

/-- Little-endian base-`2 ^ bits` value of a list of fields. -/
def packByte (bits : Nat) (c : List Nat) : Nat :=
  c.foldr (fun x acc => x + 2 ^ bits * acc) 0

/-- The `s` fields extracted from one byte by the unpacking loop. -/
def unpackByte (bits s b : Nat) : List Nat :=
  (List.range s).map (fun j => (b >>> (bits * j)) &&& (2 ^ bits - 1))

/-- The packing loop as recursion on chunks of `s` values. -/
def packChunks (bits s : Nat) : Nat → List Nat → List Nat
  | 0, _ => []
  | m + 1, v => packByte bits (v.take s) :: packChunks bits s m (v.drop s)

/-! ### Byte-level lemmas -/

theorem packByte_nil (bits : Nat) : packByte bits [] = 0 := rfl

theorem packByte_cons (bits x : Nat) (c : List Nat) :
    packByte bits (x :: c) = x + 2 ^ bits * packByte bits c := rfl

theorem packByte_lt (bits : Nat) (c : List Nat) (h : ∀ x ∈ c, x < 2 ^ bits) :
    packByte bits c < (2 ^ bits) ^ c.length := by
  induction c with
  | nil => simp [packByte_nil]
  | cons x c ih =>
    have hx : x < 2 ^ bits := h x (List.mem_cons_self x c)
    have hc : packByte bits c < (2 ^ bits) ^ c.length :=
      ih (fun y hy => h y (List.mem_cons_of_mem x hy))
    rw [packByte_cons, List.length_cons, pow_succ']
    calc x + 2 ^ bits * packByte bits c
        < 2 ^ bits + 2 ^ bits * packByte bits c := by omega
      _ = 2 ^ bits * (packByte bits c + 1) := by ring
      _ ≤ 2 ^ bits * (2 ^ bits) ^ c.length :=
          Nat.mul_le_mul_left _ (Nat.succ_le_of_lt hc)

theorem packByte_append_singleton (bits x : Nat) (c : List Nat) :
    packByte bits (c ++ [x]) = packByte bits c + x * (2 ^ bits) ^ c.length := by
  induction c with
  | nil => simp [packByte]
  | cons y c ih =>
    rw [List.cons_append, packByte_cons, packByte_cons, ih, List.length_cons, pow_succ']
    ring

theorem unpackByte_zero (bits b : Nat) : unpackByte bits 0 b = [] := rfl

theorem unpackByte_succ (bits s b : Nat) :
    unpackByte bits (s + 1) b =
      (b &&& (2 ^ bits - 1)) :: unpackByte bits s (b >>> bits) := by
  unfold unpackByte
  rw [List.range_succ_eq_map, List.map_cons, List.map_map]
  refine congrArg₂ _ (by simp) ?_
  refine List.map_congr_left (fun j _ => ?_)
  simp only [Function.comp_apply, Nat.succ_eq_add_one]
  rw [show bits * (j + 1) = bits + bits * j by ring, Nat.shiftRight_add]

theorem length_unpackByte (bits s b : Nat) : (unpackByte bits s b).length = s := by
  simp [unpackByte]

/-- Unpacking one byte recovers the chunk it was packed from. -/
theorem unpackByte_packByte (bits : Nat) (c : List Nat)
    (h : ∀ x ∈ c, x < 2 ^ bits) :
    unpackByte bits c.length (packByte bits c) = c := by
  induction c with
  | nil => rfl
  | cons x c ih =>
    have hx : x < 2 ^ bits := h x (List.mem_cons_self x c)
    have hc : ∀ y ∈ c, y < 2 ^ bits := fun y hy => h y (List.mem_cons_of_mem x hy)
    rw [List.length_cons, packByte_cons, unpackByte_succ]
    have hmod : (x + 2 ^ bits * packByte bits c) &&& (2 ^ bits - 1) = x := by
      rw [Nat.and_pow_two_sub_one_eq_mod, Nat.add_mul_mod_self_left, Nat.mod_eq_of_lt hx]
    have hdiv : (x + 2 ^ bits * packByte bits c) >>> bits = packByte bits c := by
      rw [Nat.shiftRight_eq_div_pow, Nat.add_mul_div_left _ _ (Nat.two_pow_pos bits),
        Nat.div_eq_of_lt hx, Nat.zero_add]
    rw [hmod, hdiv, ih hc]

/-- Packing the fields of one byte recovers the byte modulo `2 ^ (bits * s)`. -/
theorem packByte_unpackByte (bits s b : Nat) :
    packByte bits (unpackByte bits s b) = b % (2 ^ bits) ^ s := by
  induction s generalizing b with
  | zero => simp [unpackByte_zero, packByte_nil, Nat.mod_one]
  | succ s ih =>
    rw [unpackByte_succ, packByte_cons, ih, Nat.and_pow_two_sub_one_eq_mod,
      Nat.shiftRight_eq_div_pow, pow_succ', Nat.mod_mul]

/-! ### The shift-and-OR loop computes the base-`2^bits` chunk value -/

/-- One pass of the packing loop over sub-positions `0, ..., s-1` computes
the base-`2 ^ bits` value of the fields `f 0, ..., f (s-1)`, provided every
field is in range and `s` fields of `bits` bits fit in the 8-bit carrier. -/
theorem pack_fold_eq (bits : Nat) (f : Nat → Nat) :
    ∀ s : Nat, bits * s ≤ 8 → (∀ j < s, f j < 2 ^ bits) →
      (List.range s).foldl (fun acc j => acc ||| ((f j <<< (bits * j)) % 256)) 0
        = packByte bits ((List.range s).map f) := by
  intro s
  induction s with
  | zero => intro _ _; rfl
  | succ s ih =>
    intro hle hf
    have hle' : bits * s ≤ 8 :=
      le_trans (Nat.mul_le_mul_left bits (Nat.le_succ s)) hle
    have hf' : ∀ j < s, f j < 2 ^ bits := fun j hj => hf j (Nat.lt_succ_of_lt hj)
    rw [List.range_succ, List.foldl_append, List.map_append, ih hle' hf']
    have hmem : ∀ x ∈ (List.range s).map f, x < 2 ^ bits := by
      intro x hx
      rcases List.mem_map.mp hx with ⟨j, hj, rfl⟩
      exact hf' j (List.mem_range.mp hj)
    have hPlt : packByte bits ((List.range s).map f) < 2 ^ (bits * s) := by
      have h := packByte_lt bits ((List.range s).map f) hmem
      rwa [List.length_map, List.length_range, ← pow_mul] at h
    have hflt : f s * 2 ^ (bits * s) < 256 := by
      calc f s * 2 ^ (bits * s) < 2 ^ bits * 2 ^ (bits * s) :=
            mul_lt_mul_of_pos_right (hf s (Nat.lt_succ_self s)) (Nat.two_pow_pos _)
        _ = 2 ^ (bits * (s + 1)) := by
            rw [← pow_add, show bits + bits * s = bits * (s + 1) by ring]
        _ ≤ 2 ^ 8 := Nat.pow_le_pow_right (by norm_num) hle
        _ = 256 := by norm_num
    simp only [List.foldl_cons, List.foldl_nil, List.map_cons, List.map_nil]
    rw [packByte_append_singleton, List.length_map, List.length_range,
      Nat.shiftLeft_eq, Nat.mod_eq_of_lt hflt, Nat.lor_comm,
      Nat.mul_comm (f s) (2 ^ (bits * s)), ← Nat.mul_add_lt_is_or hPlt (f s), ← pow_mul]
    ring

/-! ### Arithmetic and list-indexing helpers -/

theorem steps_eq (bits s : Nat) (hb : 0 < bits) (hs : bits * s = 8) : 8 / bits = s := by
  rw [← hs, Nat.mul_div_cancel_left s hb]

theorem values_eq (bits s m : Nat) (hs : bits * s = 8) (len : Nat) (hlen : len = s * m) :
    len * bits / 8 = m := by
  subst hlen
  rw [show s * m * bits = 8 * m by rw [← hs]; ring, Nat.mul_div_cancel_left m (by norm_num)]

theorem values_mul_steps_le (bits s : Nat) (hs : bits * s = 8) (len : Nat) :
    len * bits / 8 * s ≤ len := by
  have h1 : len * bits / 8 * 8 ≤ len * bits := Nat.div_mul_le_self (len * bits) 8
  have h4 : len * bits / 8 * s * 8 ≤ len * 8 := by
    calc len * bits / 8 * s * 8 = len * bits / 8 * 8 * s := by ring
      _ ≤ len * bits * s := Nat.mul_le_mul_right s h1
      _ = len * 8 := by rw [← hs]; ring
  exact Nat.le_of_mul_le_mul_right h4 (by norm_num)

theorem getD_drop (v : List Nat) (n k d : Nat) :
    (v.drop n).getD k d = v.getD (n + k) d := by
  simp [List.getD_eq_getElem?_getD, List.getElem?_drop]

theorem map_getD_range_take (v : List Nat) :
    ∀ s : Nat, s ≤ v.length → (List.range s).map (fun j => v.getD j 0) = v.take s := by
  intro s
  induction s with
  | zero => intro _; rfl
  | succ s ih =>
    intro hs
    have hs' : s < v.length := hs
    rw [List.range_succ, List.map_append, ih (Nat.le_of_lt hs'), List.take_succ,
      List.getElem?_eq_getElem hs', List.map_cons, List.map_nil,
      List.getD_eq_getElem v 0 hs']
    rfl

theorem pack_body_def (v : List Nat) (bits : Nat) :
    pack_body v bits =
      (List.range (v.length * bits / 8)).map (fun i =>
        (List.range (8 / bits)).foldl
          (fun acc j => acc ||| ((v.getD (i * (8 / bits) + j) 0 <<< (bits * j)) % 256))
          0) := rfl

theorem length_pack_body (v : List Nat) (bits : Nat) :
    (pack_body v bits).length = v.length * bits / 8 := by
  rw [pack_body_def]
  simp

/-! ### The packing loop as chunk recursion -/

theorem pack_body_chunks (bits s : Nat) (hb : 0 < bits) (hs : bits * s = 8) :
    ∀ (m : Nat) (v : List Nat), v.length = s * m → (∀ x ∈ v, x < 2 ^ bits) →
      pack_body v bits = packChunks bits s m v := by
  intro m
  induction m with
  | zero =>
    intro v hlen _
    have hnil : v = [] := List.eq_nil_of_length_eq_zero (by omega)
    subst hnil
    rw [pack_body_def]
    simp [packChunks]
  | succ m ih =>
    intro v hlen hrange
    have hsm : s * (m + 1) = s * m + s := by ring
    have hslen : s ≤ v.length := by omega
    rw [pack_body_def, steps_eq bits s hb hs, values_eq bits s (m + 1) hs v.length hlen,
      List.range_succ_eq_map, List.map_cons, List.map_map]
    simp only [packChunks]
    congr 1
    · simp only [Nat.zero_mul, Nat.zero_add]
      have h0 : ∀ j < s, v.getD j 0 < 2 ^ bits := by
        intro j hj
        have hjlen : j < v.length := lt_of_lt_of_le hj hslen
        rw [List.getD_eq_getElem v 0 hjlen]
        exact hrange _ (List.getElem_mem hjlen)
      rw [pack_fold_eq bits (fun j => v.getD j 0) s (le_of_eq hs) h0,
        map_getD_range_take v s hslen]
    · have hdlen : (v.drop s).length = s * m := by
        rw [List.length_drop, hlen]
        omega
      have hdrange : ∀ x ∈ v.drop s, x < 2 ^ bits :=
        fun x hx => hrange x (List.mem_of_mem_drop hx)
      rw [← ih (v.drop s) hdlen hdrange, pack_body_def, steps_eq bits s hb hs,
        values_eq bits s m hs (v.drop s).length hdlen]
      refine List.map_congr_left (fun i _ => ?_)
      refine List.foldl_ext _ _ _ (fun acc j _ => ?_)
      have hidx : Nat.succ i * s + j = s + (i * s + j) := by
        rw [Nat.succ_eq_add_one]; ring
      rw [getD_drop v s (i * s + j) 0, ← hidx]

/-! ### The unpacking loop, byte by byte -/

theorem unpack_body_nil (bits : Nat) : unpack_body [] bits = [] := rfl

theorem unpack_body_cons (bits b : Nat) (p : List Nat) :
    unpack_body (b :: p) bits = unpackByte bits (8 / bits) b ++ unpack_body p bits := rfl

theorem length_unpack_body (bits : Nat) (p : List Nat) :
    (unpack_body p bits).length = p.length * (8 / bits) := by
  induction p with
  | nil => simp [unpack_body_nil]
  | cons b p ih =>
    rw [unpack_body_cons, List.length_append, length_unpackByte, ih, List.length_cons]
    ring

/-- For the supported widths the two loop bounds of `unpack_weights` agree,
so the zero tail of the allocated output is empty. -/
theorem unpack_weights_eq_body (bits : Nat) (hb : 0 < bits)
    (hs : bits * (8 / bits) = 8) (p : List Nat) :
    unpack_weights p bits = unpack_body p bits := by
  simp only [unpack_weights, length_unpack_body]
  rw [show p.length * 8 = p.length * (bits * (8 / bits)) by rw [hs],
    show p.length * (bits * (8 / bits)) = bits * (p.length * (8 / bits)) by ring,
    Nat.mul_div_cancel_left _ hb, Nat.sub_self, List.replicate_zero, List.append_nil]

theorem length_unpack_weights (bits : Nat) (hb : 0 < bits)
    (hs : bits * (8 / bits) = 8) (p : List Nat) :
    (unpack_weights p bits).length = p.length * 8 / bits := by
  have h8 : p.length * 8 = bits * (p.length * (8 / bits)) := by
    conv_lhs => rw [← hs]
    ring
  rw [unpack_weights_eq_body bits hb hs p, length_unpack_body, h8,
    Nat.mul_div_cancel_left _ hb]

/-- Unpacking the chunk-packed bytes recovers the input list. -/
theorem unpack_body_packChunks (bits s : Nat) (hb : 0 < bits) (hs : bits * s = 8) :
    ∀ (m : Nat) (v : List Nat), v.length = s * m → (∀ x ∈ v, x < 2 ^ bits) →
      unpack_body (packChunks bits s m v) bits = v := by
  intro m
  induction m with
  | zero =>
    intro v hlen _
    have hnil : v = [] := List.eq_nil_of_length_eq_zero (by omega)
    subst hnil
    rfl
  | succ m ih =>
    intro v hlen hrange
    have hsm : s * (m + 1) = s * m + s := by ring
    have hslen : s ≤ v.length := by omega
    simp only [packChunks]
    rw [unpack_body_cons, steps_eq bits s hb hs]
    have htlen : (v.take s).length = s := by
      rw [List.length_take]
      omega
    have htake : unpackByte bits s (packByte bits (v.take s)) = v.take s := by
      have h := unpackByte_packByte bits (v.take s)
        (fun x hx => hrange x (List.mem_of_mem_take hx))
      rwa [htlen] at h
    have hdlen : (v.drop s).length = s * m := by
      rw [List.length_drop, hlen]
      omega
    rw [htake, ih (v.drop s) hdlen (fun x hx => hrange x (List.mem_of_mem_drop hx)),
      List.take_append_drop]

/-- Chunk-packing the fields of a byte list recovers the bytes. -/
theorem packChunks_unpack_body (bits s : Nat) (hb : 0 < bits) (hs : bits * s = 8) :
    ∀ p : List Nat, (∀ x ∈ p, x < 256) →
      packChunks bits s p.length (unpack_body p bits) = p := by
  intro p
  induction p with
  | nil => intro _; rfl
  | cons b p ih =>
    intro hp
    rw [List.length_cons, unpack_body_cons, steps_eq bits s hb hs]
    simp only [packChunks]
    rw [List.take_left' (length_unpackByte bits s b),
      List.drop_left' (length_unpackByte bits s b), packByte_unpackByte, ← pow_mul, hs,
      show (2 : Nat) ^ 8 = 256 by norm_num,
      Nat.mod_eq_of_lt (hp b (List.mem_cons_self b p)),
      ih (fun x hx => hp x (List.mem_cons_of_mem b hx))]

/-! ### Bounds on the produced values -/

theorem foldl_or_lt_256 (g : Nat → Nat) (l : List Nat) :
    ∀ acc : Nat, acc < 256 → l.foldl (fun a j => a ||| (g j % 256)) acc < 256 := by
  induction l with
  | nil => intro acc h; exact h
  | cons j l ih =>
    intro acc h
    rw [List.foldl_cons]
    refine ih _ ?_
    have h2 : g j % 256 < 256 := Nat.mod_lt _ (by norm_num)
    have e : (256 : Nat) = 2 ^ 8 := by norm_num
    rw [e] at h h2 ⊢
    exact Nat.or_lt_two_pow h h2

/-- Every byte produced by the packing loop fits in `uint8`. -/
theorem pack_body_lt_256 (v : List Nat) (bits : Nat) :
    ∀ x ∈ pack_body v bits, x < 256 := by
  intro x hx
  rw [pack_body_def] at hx
  rcases List.mem_map.mp hx with ⟨i, _, rfl⟩
  exact foldl_or_lt_256 _ _ 0 (by norm_num)

/-- Every value produced by the unpacking loop is at most the mask. -/
theorem unpack_body_mem_le (bits : Nat) (p : List Nat) :
    ∀ x ∈ unpack_body p bits, x ≤ 2 ^ bits - 1 := by
  intro x hx
  simp only [unpack_body] at hx
  rcases List.mem_flatMap.mp hx with ⟨b, _, hxb⟩
  rcases List.mem_map.mp hxb with ⟨j, _, rfl⟩
  exact Nat.and_le_right

/-! ### The guard of pack_weights -/

theorem pack_weights_ok (v : List Nat) (bits : Nat) (h : v.length * bits % 8 = 0) :
    pack_weights v bits = Except.ok (pack_body v bits) := by
  simp [pack_weights, h]

theorem pack_weights_ok_inv (v p : List Nat) (bits : Nat)
    (h : pack_weights v bits = Except.ok p) : p = pack_body v bits := by
  by_cases hc : v.length * bits % 8 = 0
  · rw [pack_weights_ok v bits hc] at h
    exact (Except.ok.inj h).symm
  · simp [pack_weights, hc] at h

/-! ### No shift overflows the 8-bit carrier -/

theorem shift_bound (bits s : Nat) (hs : bits * s = 8) (x j : Nat)
    (hx : x < 2 ^ bits) (hj : j < s) : x <<< (bits * j) < 256 := by
  rw [Nat.shiftLeft_eq]
  calc x * 2 ^ (bits * j) < 2 ^ bits * 2 ^ (bits * j) :=
        mul_lt_mul_of_pos_right hx (Nat.two_pow_pos _)
    _ = 2 ^ (bits + bits * j) := (pow_add 2 bits (bits * j)).symm
    _ ≤ 2 ^ 8 := Nat.pow_le_pow_right (by norm_num) (by
        rw [show bits + bits * j = bits * (j + 1) by ring, ← hs]
        exact Nat.mul_le_mul_left bits hj)
    _ = 256 := by norm_num

theorem pack_body_eq_spec (bits s : Nat) (hb : 0 < bits) (hs : bits * s = 8)
    (v : List Nat) (hrange : ∀ x ∈ v, x < 2 ^ bits) :
    pack_body v bits = pack_body_spec v bits := by
  have hsd : 8 / bits = s := steps_eq bits s hb hs
  simp only [pack_body, pack_body_spec, hsd]
  refine List.map_congr_left (fun i hi => ?_)
  refine List.foldl_ext _ _ _ (fun acc j hj => ?_)
  have hi' : i < v.length * bits / 8 := List.mem_range.mp hi
  have hj' : j < s := List.mem_range.mp hj
  have hidx : i * s + j < v.length := by
    have h1 : (i + 1) * s = i * s + s := by ring
    have h2 : (i + 1) * s ≤ v.length * bits / 8 * s := Nat.mul_le_mul_right s hi'
    have h3 := values_mul_steps_le bits s hs v.length
    omega
  have hlt : v.getD (i * s + j) 0 < 2 ^ bits := by
    rw [List.getD_eq_getElem v 0 hidx]
    exact hrange _ (List.getElem_mem hidx)
  rw [Nat.mod_eq_of_lt (shift_bound bits s hs _ j hlt hj')]

/-! ### Core round-trip theorems, generic in the bit width -/

theorem supported_pos (bits : Nat) (hbits : bits = 1 ∨ bits = 2 ∨ bits = 4 ∨ bits = 8) :
    0 < bits := by
  rcases hbits with rfl | rfl | rfl | rfl <;> norm_num

theorem supported_mul_div (bits : Nat)
    (hbits : bits = 1 ∨ bits = 2 ∨ bits = 4 ∨ bits = 8) : bits * (8 / bits) = 8 := by
  rcases hbits with rfl | rfl | rfl | rfl <;> norm_num

theorem roundtrip_core (bits s : Nat) (hb : 0 < bits) (hs : bits * s = 8)
    (v : List Nat) (hlen : v.length % s = 0) (hrange : ∀ x ∈ v, x < 2 ^ bits) :
    pack_weights v bits = Except.ok (pack_body v bits) ∧
      unpack_weights (pack_body v bits) bits = v := by
  obtain ⟨m, hm⟩ : s ∣ v.length := Nat.dvd_of_mod_eq_zero hlen
  have halign : v.length * bits % 8 = 0 := by
    rw [hm, show s * m * bits = m * 8 by rw [← hs]; ring, Nat.mul_mod_left]
  refine ⟨pack_weights_ok v bits halign, ?_⟩
  have hs' : bits * (8 / bits) = 8 := by rw [steps_eq bits s hb hs]; exact hs
  rw [pack_body_chunks bits s hb hs m v hm hrange,
    unpack_weights_eq_body bits hb hs' _,
    unpack_body_packChunks bits s hb hs m v hm hrange]

theorem pack_body_unpack_body (bits s : Nat) (hb : 0 < bits) (hs : bits * s = 8)
    (p : List Nat) (hp : ∀ x ∈ p, x < 256) :
    pack_body (unpack_body p bits) bits = p := by
  have hlen : (unpack_body p bits).length = s * p.length := by
    rw [length_unpack_body, steps_eq bits s hb hs]
    ring
  have hrange : ∀ x ∈ unpack_body p bits, x < 2 ^ bits := by
    intro x hx
    have h1 := unpack_body_mem_le bits p x hx
    have h2 := Nat.two_pow_pos bits
    omega
  rw [pack_body_chunks bits s hb hs p.length (unpack_body p bits) hlen hrange,
    packChunks_unpack_body bits s hb hs p hp]

/-! ### Claim theorems -/

/-- C1: for every supported `bits ∈ {1,2,4,8}` and every sequence `v` whose
length is a multiple of `8 / bits` with each element in `[0, 2^bits - 1]`,
packing succeeds and unpacking the packed buffer reconstructs `v` exactly. -/
theorem pack_unpack_roundtrip (bits : Nat) (v : List Nat)
    (hbits : bits = 1 ∨ bits = 2 ∨ bits = 4 ∨ bits = 8)
    (hlen : v.length % (8 / bits) = 0)
    (hrange : ∀ x ∈ v, x ≤ 2 ^ bits - 1) :
    pack_weights v bits = Except.ok (pack_body v bits) ∧
      unpack_weights (pack_body v bits) bits = v := by
  have hb := supported_pos bits hbits
  have hs := supported_mul_div bits hbits
  have hrange' : ∀ x ∈ v, x < 2 ^ bits := by
    intro x hx
    have h1 := hrange x hx
    have h2 := Nat.two_pow_pos bits
    omega
  exact roundtrip_core bits (8 / bits) hb hs v hlen hrange'

/-- C1 witness: the round trip at `v = [1, 0, 3, 2]`, `bits = 2`. -/
theorem pack_unpack_roundtrip_witness :
    pack_weights [1, 0, 3, 2] 2 = Except.ok (pack_body [1, 0, 3, 2] 2) ∧
      unpack_weights (pack_body [1, 0, 3, 2] 2) 2 = [1, 0, 3, 2] :=
  pack_unpack_roundtrip 2 [1, 0, 3, 2] (by decide) (by decide) (by decide)

/-- C2 counterexample: `pack([1, 4, 0, 0], bits = 2)` does not fail even
though 4 is out of range for 2 bits; it returns the packed buffer `[17]`
(`4 << 2` is OR-ed straight into byte 0). -/
theorem pack_out_of_range_accepted : pack_weights [1, 4, 0, 0] 2 = Except.ok [17] := rfl

/-- C2 amended: `pack_weights` performs no range validation: for every
supported width, every aligned input is packed by shift-and-OR regardless of
its element values, so out-of-range elements corrupt neighbouring fields
instead of raising an error. -/
theorem pack_no_range_validation (bits : Nat) (v : List Nat)
    (_hbits : bits = 1 ∨ bits = 2 ∨ bits = 4 ∨ bits = 8)
    (halign : v.length * bits % 8 = 0) :
    pack_weights v bits = Except.ok (pack_body v bits) :=
  pack_weights_ok v bits halign

/-- C2 witness: the amended statement at the claim's own input. -/
theorem pack_no_range_validation_witness :
    pack_weights [1, 4, 0, 0] 2 = Except.ok (pack_body [1, 4, 0, 0] 2) :=
  pack_no_range_validation 2 [1, 4, 0, 0] (by decide) (by decide)

/-- C3 counterexample: `bits = 3` is not in the supported set, yet neither
function fails: pack accepts an aligned input and unpack produces output
(with a zero tail where the two loop bounds disagree). -/
theorem unsupported_bitwidth_accepted :
    pack_weights (List.replicate 8 0) 3 = Except.ok [0, 0, 0] ∧
      unpack_weights [7] 3 = [7, 0] :=
  ⟨rfl, by decide⟩

/-- C3 amended: there is no check of membership in the supported set: for
every nonzero `bits` (supported or not), the only check `pack_weights`
performs is the length alignment check, so no InvalidBitWidth error exists.
(`bits = 0` is excluded: there the source fails too, but with a division
error at `8 // bits`, not with InvalidBitWidth.) -/
theorem no_bitwidth_validation (bits : Nat) (v : List Nat) (_hb : 0 < bits)
    (halign : v.length * bits % 8 = 0) :
    pack_weights v bits = Except.ok (pack_body v bits) :=
  pack_weights_ok v bits halign

/-- C3 witness: the amended statement at the unsupported width 3. -/
theorem no_bitwidth_validation_witness :
    pack_weights (List.replicate 8 0) 3 = Except.ok (pack_body (List.replicate 8 0) 3) :=
  no_bitwidth_validation 3 (List.replicate 8 0) (by decide) (by decide)

/-- C4: for every supported width, an input whose length times `bits` is not
a multiple of 8 makes pack fail with the error naming the required multiple
`8 / bits`, and no packed buffer is returned. -/
theorem pack_misaligned_error (bits : Nat) (v : List Nat)
    (_hbits : bits = 1 ∨ bits = 2 ∨ bits = 4 ∨ bits = 8)
    (hlen : v.length * bits % 8 ≠ 0) :
    pack_weights v bits =
      Except.error ("The input length must be a multiple of " ++ toString (8 / bits)) := by
  simp [pack_weights, hlen]

/-- C4 witness: `pack([1, 2, 3], bits = 2)` fails (3 is not a multiple of 4). -/
theorem pack_misaligned_error_witness :
    pack_weights [1, 2, 3] 2 =
      Except.error ("The input length must be a multiple of " ++ toString (8 / 2)) :=
  pack_misaligned_error 2 [1, 2, 3] (by decide) (by decide)

/-- C5: output lengths are exact: a successful pack returns
`len(v) * bits / 8` bytes, and unpack always returns `len(p) * 8 / bits`
values, with no alignment precondition on `p`. -/
theorem pack_unpack_length_laws (bits : Nat)
    (hbits : bits = 1 ∨ bits = 2 ∨ bits = 4 ∨ bits = 8) :
    (∀ v p : List Nat, pack_weights v bits = Except.ok p →
        p.length = v.length * bits / 8) ∧
      ∀ p : List Nat, (unpack_weights p bits).length = p.length * 8 / bits := by
  have hb := supported_pos bits hbits
  have hs := supported_mul_div bits hbits
  constructor
  · intro v p h
    rw [pack_weights_ok_inv v p bits h, length_pack_body]
  · intro p
    exact length_unpack_weights bits hb hs p

/-- C5 witness: both length laws at `bits = 2`, `v = [1, 0, 3, 2]`, `p = [177]`. -/
theorem pack_unpack_length_laws_witness :
    ([177] : List Nat).length = ([1, 0, 3, 2] : List Nat).length * 2 / 8 ∧
      (unpack_weights [177] 2).length = ([177] : List Nat).length * 8 / 2 :=
  ⟨(pack_unpack_length_laws 2 (by decide)).1 [1, 0, 3, 2] [177] rfl,
    (pack_unpack_length_laws 2 (by decide)).2 [177]⟩

/-- C6: the least-significant-first bit layout on the literal scenarios:
`pack([1,0,3,2], 2) = [177]`, `unpack([177], 2) = [1,0,3,2]`,
`pack([15,0], 4) = [15]`, `unpack([255], 4) = [15,15]`. -/
theorem bit_layout_literals :
    pack_weights [1, 0, 3, 2] 2 = Except.ok [177] ∧
      unpack_weights [177] 2 = [1, 0, 3, 2] ∧
      pack_weights [15, 0] 4 = Except.ok [15] ∧
      unpack_weights [255] 4 = [15, 15] :=
  ⟨rfl, by decide, rfl, by decide⟩

/-- C7: for every packed buffer produced by a successful pack call with a
supported width, unpack-then-pack returns exactly that buffer. -/
theorem unpack_then_pack_identity (bits : Nat) (v p : List Nat)
    (hbits : bits = 1 ∨ bits = 2 ∨ bits = 4 ∨ bits = 8)
    (hpack : pack_weights v bits = Except.ok p) :
    pack_weights (unpack_weights p bits) bits = Except.ok p := by
  have hb := supported_pos bits hbits
  have hs := supported_mul_div bits hbits
  have hp : p = pack_body v bits := pack_weights_ok_inv v p bits hpack
  have hp256 : ∀ x ∈ p, x < 256 := by
    rw [hp]
    exact pack_body_lt_256 v bits
  rw [unpack_weights_eq_body bits hb hs p]
  have halign : (unpack_body p bits).length * bits % 8 = 0 := by
    rw [length_unpack_body]
    have h2 : p.length * (8 / bits) * bits = p.length * 8 := by
      rw [show p.length * (8 / bits) * bits = p.length * (bits * (8 / bits)) by ring, hs]
    rw [h2, Nat.mul_mod_left]
  rw [pack_weights_ok _ bits halign, pack_body_unpack_body bits (8 / bits) hb hs p hp256]

/-- C7 witness: the identity at `p = [177]`, produced by packing `[1,0,3,2]`. -/
theorem unpack_then_pack_identity_witness :
    pack_weights (unpack_weights [177] 2) 2 = Except.ok [177] :=
  unpack_then_pack_identity 2 [1, 0, 3, 2] [177] (by decide) rfl

/-- C8: for every supported width, packing the empty sequence succeeds with
the empty buffer and unpacking the empty buffer yields the empty sequence. -/
theorem empty_roundtrip :
    pack_weights [] 1 = Except.ok [] ∧ pack_weights [] 2 = Except.ok [] ∧
      pack_weights [] 4 = Except.ok [] ∧ pack_weights [] 8 = Except.ok [] ∧
      unpack_weights [] 1 = [] ∧ unpack_weights [] 2 = [] ∧
      unpack_weights [] 4 = [] ∧ unpack_weights [] 8 = [] :=
  ⟨rfl, rfl, rfl, rfl, rfl, rfl, rfl, rfl⟩

/-- C9: under the range precondition every shifted value stays below 256, so
the shift-and-OR loop of pack loses no bits: it agrees with the ideal
wraparound-free loop described by the spec. -/
theorem pack_shift_no_overflow (bits : Nat) (v : List Nat)
    (hbits : bits = 1 ∨ bits = 2 ∨ bits = 4 ∨ bits = 8)
    (hrange : ∀ x ∈ v, x ≤ 2 ^ bits - 1) :
    (∀ i j : Nat, j < 8 / bits → i * (8 / bits) + j < v.length →
        v.getD (i * (8 / bits) + j) 0 <<< (bits * j) < 256) ∧
      pack_body v bits = pack_body_spec v bits := by
  have hb := supported_pos bits hbits
  have hs := supported_mul_div bits hbits
  have hrange' : ∀ x ∈ v, x < 2 ^ bits := by
    intro x hx
    have h1 := hrange x hx
    have h2 := Nat.two_pow_pos bits
    omega
  refine ⟨fun i j hj hidx => ?_, pack_body_eq_spec bits (8 / bits) hb hs v hrange'⟩
  have hlt : v.getD (i * (8 / bits) + j) 0 < 2 ^ bits := by
    rw [List.getD_eq_getElem v 0 hidx]
    exact hrange' _ (List.getElem_mem hidx)
  exact shift_bound bits (8 / bits) hs _ j hlt hj

/-- C9 witness: the bound at `i = 0`, `j = 3` and the loop agreement, for
`v = [1, 0, 3, 2]`, `bits = 2`. -/
theorem pack_shift_no_overflow_witness :
    ([1, 0, 3, 2] : List Nat).getD (0 * (8 / 2) + 3) 0 <<< (2 * 3) < 256 ∧
      pack_body [1, 0, 3, 2] 2 = pack_body_spec [1, 0, 3, 2] 2 :=
  ⟨(pack_shift_no_overflow 2 [1, 0, 3, 2] (by decide) (by decide)).1 0 3
      (by decide) (by decide),
    (pack_shift_no_overflow 2 [1, 0, 3, 2] (by decide) (by decide)).2⟩

/-- C10: for every byte sequence and every supported width, every element of
the unpacked output lies in `[0, 2^bits - 1]` (the mask guarantees it). -/
theorem unpack_values_in_range (bits : Nat) (p : List Nat)
    (hbits : bits = 1 ∨ bits = 2 ∨ bits = 4 ∨ bits = 8) :
    ∀ x ∈ unpack_weights p bits, x ≤ 2 ^ bits - 1 := by
  have hb := supported_pos bits hbits
  have hs := supported_mul_div bits hbits
  rw [unpack_weights_eq_body bits hb hs p]
  exact unpack_body_mem_le bits p

/-- C10 witness: the element 3 of `unpack([177], 2)` is within the mask. -/
theorem unpack_values_in_range_witness : (3 : Nat) ≤ 2 ^ 2 - 1 :=
  unpack_values_in_range 2 [177] (by decide) 3 (by decide)

end PackCodec
